import Mathlib

/-!
Verification of the similarity core: the TSED scorer (`calculate_tsed` from
`crates/core/src/tsed.rs`), a spec-modelled APTED edit-distance engine, and the
Python parser adapter (`crates/core/src/python_parser.rs`).

Floating-point (`f64`) arithmetic is embedded as real arithmetic; `x.powf(0.5)`
on the non-negative quantities it is applied to is embedded as `Real.sqrt`.
-/

namespace Similarity

/-- The ordered labeled tree of the data model (`tree.rs`: `TreeNode`):
`label`, `value`, pre-order `id`, ordered `children`. -/
inductive TreeNode where
  | mk (label : String) (value : String) (id : Nat) (children : List TreeNode)

def TreeNode.label : TreeNode → String
  | .mk l _ _ _ => l

def TreeNode.value : TreeNode → String
  | .mk _ v _ _ => v

def TreeNode.id : TreeNode → Nat
  | .mk _ _ i _ => i

def TreeNode.children : TreeNode → List TreeNode
  | .mk _ _ _ cs => cs

mutual

/-- Modelled from the spec: `tree.rs` is not under `src/`; per §3,
`subtree_size` is the total node count of the subtree rooted here. -/
def get_subtree_size : TreeNode → Nat
  | .mk _ _ _ cs => 1 + forest_size cs

/-- Total node count of a forest (list of trees). -/
def forest_size : List TreeNode → Nat
  | [] => 0
  | t :: f => get_subtree_size t + forest_size f

end

/-- APTED per-operation costs (`APTEDOptions` in `apted.rs`, declared by
`tsed.rs`): non-negative reals per the spec's data model. -/
structure APTEDOptions where
  rename_cost : ℝ
  delete_cost : ℝ
  insert_cost : ℝ

/-- Modelled from the spec: node equality for rename cost (§4.1) — zero cost
iff `label` and `value` are both identical, else `rename_cost`. -/
noncomputable def rename_cost_of (c : APTEDOptions) (u v : TreeNode) : ℝ :=
  if u.label = v.label ∧ u.value = v.value then 0 else c.rename_cost

theorem get_subtree_size_pos (t : TreeNode) : 0 < get_subtree_size t := by
  cases t with
  | mk l v i cs => simp [get_subtree_size]

theorem forest_size_cons (u : TreeNode) (f : List TreeNode) :
    forest_size (u :: f) = get_subtree_size u + forest_size f := by
  simp [forest_size]

theorem forest_size_children_lt (u : TreeNode) :
    forest_size u.children < get_subtree_size u := by
  cases u with
  | mk l v i cs =>
    simp only [get_subtree_size, TreeNode.children]
    omega

/-- Modelled from the spec: the APTED forest edit distance of §4.1 (`apted.rs`
is not under `src/`). The recurrence over forests with rightmost roots `u`, `v`
(forests are lists with the rightmost root first): the empty/empty case is `0`;
deleting (inserting) an entire forest costs one `delete_cost` (`insert_cost`)
per node; otherwise the minimum of deleting the whole rightmost subtree of the
first forest, inserting the whole rightmost subtree of the second, and matching
the two rightmost subtrees, where the subtree distance `d(u, v)` is the forest
distance of the root-removed forests plus the rename cost of the roots. -/
noncomputable def forest_dist (c : APTEDOptions) : List TreeNode → List TreeNode → ℝ
  | [], [] => 0
  | u :: f1, [] => c.delete_cost * get_subtree_size u + forest_dist c f1 []
  | [], v :: f2 => c.insert_cost * get_subtree_size v + forest_dist c [] f2
  | u :: f1, v :: f2 =>
      min (min (c.delete_cost * get_subtree_size u + forest_dist c f1 (v :: f2))
               (c.insert_cost * get_subtree_size v + forest_dist c (u :: f1) f2))
          ((forest_dist c u.children v.children + rename_cost_of c u v)
            + forest_dist c f1 f2)
  termination_by f1 f2 => forest_size f1 + forest_size f2
  decreasing_by
  · have h1 := get_subtree_size_pos u
    simp only [forest_size]; omega
  · have h1 := get_subtree_size_pos v
    simp only [forest_size]; omega
  · have h1 := get_subtree_size_pos u
    simp only [forest_size]; omega
  · have h1 := get_subtree_size_pos v
    simp only [forest_size]; omega
  · have h1 := forest_size_children_lt u
    have h2 := forest_size_children_lt v
    simp only [forest_size]; omega
  · have h1 := get_subtree_size_pos u
    have h2 := get_subtree_size_pos v
    simp only [forest_size]; omega

/-- Modelled from the spec: `compute_edit_distance` (`apted.rs`, not under
`src/`): the subtree edit distance `d(r1, r2)` of §4.1, the distance between
the root-removed forests plus the rename cost of the roots. -/
noncomputable def compute_edit_distance (t1 t2 : TreeNode) (c : APTEDOptions) : ℝ :=
  forest_dist c t1.children t2.children + rename_cost_of c t1 t2

/-- `TSEDOptions` from `tsed.rs`. -/
structure TSEDOptions where
  apted_options : APTEDOptions
  min_lines : Nat
  size_penalty : Bool

/-- `calculate_tsed` from `tsed.rs`, line by line: base similarity
`max (1 - d / max_size) 0` when `max_size > 0` else `1`; when `size_penalty`
is set, multiply by `sqrt (min_size / 20)` if `min_size < 20`, then by
`sqrt size_ratio` if `size_ratio < 0.5`. -/
noncomputable def calculate_tsed (tree1 tree2 : TreeNode) (options : TSEDOptions) : ℝ :=
  let distance := compute_edit_distance tree1 tree2 options.apted_options
  let size1 : ℝ := (get_subtree_size tree1 : ℝ)
  let size2 : ℝ := (get_subtree_size tree2 : ℝ)
  let max_size := max size1 size2
  let tsed_similarity := if max_size > 0 then max (1 - distance / max_size) 0 else 1
  let similarity := tsed_similarity
  let size_ratio := min size1 size2 / max size1 size2
  if options.size_penalty then
    let min_size := min size1 size2
    let sim1 := if min_size < 20 then similarity * Real.sqrt (min_size / 20) else similarity
    let sim2 := if size_ratio < 0.5 then sim1 * Real.sqrt size_ratio else sim1
    sim2
  else
    similarity

theorem rename_cost_of_nonneg (c : APTEDOptions) (hr : 0 ≤ c.rename_cost)
    (u v : TreeNode) : 0 ≤ rename_cost_of c u v := by
  unfold rename_cost_of
  split
  · exact le_refl 0
  · exact hr

theorem rename_cost_of_self (c : APTEDOptions) (u : TreeNode) :
    rename_cost_of c u u = 0 := by
  unfold rename_cost_of
  exact if_pos ⟨rfl, rfl⟩

theorem forest_dist_nonneg (c : APTEDOptions) (hr : 0 ≤ c.rename_cost)
    (hd : 0 ≤ c.delete_cost) (hi : 0 ≤ c.insert_cost) :
    ∀ f1 f2, 0 ≤ forest_dist c f1 f2 := by
  intro f1 f2
  induction f1, f2 using forest_dist.induct c with
  | case1 => simp [forest_dist]
  | case2 u f1 ih =>
    rw [forest_dist]
    have : (0 : ℝ) ≤ c.delete_cost * get_subtree_size u :=
      mul_nonneg hd (Nat.cast_nonneg _)
    linarith
  | case3 v f2 ih =>
    rw [forest_dist]
    have : (0 : ℝ) ≤ c.insert_cost * get_subtree_size v :=
      mul_nonneg hi (Nat.cast_nonneg _)
    linarith
  | case4 u f1 v f2 ih1 ih2 ih3 ih4 =>
    rw [forest_dist]
    have hu : (0 : ℝ) ≤ c.delete_cost * get_subtree_size u :=
      mul_nonneg hd (Nat.cast_nonneg _)
    have hv : (0 : ℝ) ≤ c.insert_cost * get_subtree_size v :=
      mul_nonneg hi (Nat.cast_nonneg _)
    have hren := rename_cost_of_nonneg c hr u v
    refine le_min (le_min (by linarith) (by linarith)) (by linarith)

theorem forest_dist_self (c : APTEDOptions) (hr : 0 ≤ c.rename_cost)
    (hd : 0 ≤ c.delete_cost) (hi : 0 ≤ c.insert_cost) :
    ∀ f, forest_dist c f f = 0 := by
  have key : ∀ n f, forest_size f ≤ n → forest_dist c f f = 0 := by
    intro n
    induction n with
    | zero =>
      intro f hf
      cases f with
      | nil => simp [forest_dist]
      | cons u f1 =>
        exfalso
        have := get_subtree_size_pos u
        simp only [forest_size] at hf
        omega
    | succ n ih =>
      intro f hf
      cases f with
      | nil => simp [forest_dist]
      | cons u f1 =>
        rw [forest_dist]
        have hchild : forest_dist c u.children u.children = 0 := by
          apply ih
          have h1 := forest_size_children_lt u
          simp only [forest_size] at hf
          omega
        have htail : forest_dist c f1 f1 = 0 := by
          apply ih
          have h1 := get_subtree_size_pos u
          simp only [forest_size] at hf
          omega
        have hthird :
            (forest_dist c u.children u.children + rename_cost_of c u u)
              + forest_dist c f1 f1 = 0 := by
          rw [hchild, htail, rename_cost_of_self]
          ring
        have hA : (0 : ℝ) ≤ c.delete_cost * get_subtree_size u
            + forest_dist c f1 (u :: f1) :=
          add_nonneg (mul_nonneg hd (Nat.cast_nonneg _))
            (forest_dist_nonneg c hr hd hi _ _)
        have hB : (0 : ℝ) ≤ c.insert_cost * get_subtree_size u
            + forest_dist c (u :: f1) f1 :=
          add_nonneg (mul_nonneg hi (Nat.cast_nonneg _))
            (forest_dist_nonneg c hr hd hi _ _)
        rw [hthird]
        exact min_eq_right (le_min hA hB)
  intro f
  exact key (forest_size f) f le_rfl

/-- Modelled from the spec: `compute_edit_distance` on equal trees is `0`
(spec §4.1, `d(T,T)=0`), for non-negative costs. -/
theorem compute_edit_distance_self (t : TreeNode) (c : APTEDOptions)
    (hr : 0 ≤ c.rename_cost) (hd : 0 ≤ c.delete_cost) (hi : 0 ≤ c.insert_cost) :
    compute_edit_distance t t c = 0 := by
  unfold compute_edit_distance
  rw [forest_dist_self c hr hd hi, rename_cost_of_self]
  ring

/-- The cost triple with `delete_cost` and `insert_cost` exchanged. -/
def APTEDOptions.swap (c : APTEDOptions) : APTEDOptions :=
  ⟨c.rename_cost, c.insert_cost, c.delete_cost⟩

theorem rename_cost_of_comm (c : APTEDOptions) (u v : TreeNode) :
    rename_cost_of c u v = rename_cost_of c.swap v u := by
  unfold rename_cost_of APTEDOptions.swap
  by_cases h : u.label = v.label ∧ u.value = v.value
  · rw [if_pos h, if_pos ⟨h.1.symm, h.2.symm⟩]
  · rw [if_neg h, if_neg (by tauto)]

theorem forest_dist_swap (c : APTEDOptions) :
    ∀ f1 f2, forest_dist c f1 f2 = forest_dist c.swap f2 f1 := by
  intro f1 f2
  induction f1, f2 using forest_dist.induct c with
  | case1 => simp [forest_dist]
  | case2 u f1 ih =>
    rw [forest_dist, forest_dist, ih]
    rfl
  | case3 v f2 ih =>
    rw [forest_dist, forest_dist, ih]
    rfl
  | case4 u f1 v f2 ih1 ih2 ih3 ih4 =>
    rw [forest_dist, forest_dist, ih1, ih2, ih3, ih4, rename_cost_of_comm]
    rw [min_comm (c.swap.delete_cost * (get_subtree_size v : ℝ)
      + forest_dist c.swap f2 (u :: f1)) _]
    rfl

theorem compute_edit_distance_symm (t1 t2 : TreeNode) (c : APTEDOptions)
    (h : c.insert_cost = c.delete_cost) :
    compute_edit_distance t1 t2 c = compute_edit_distance t2 t1 c := by
  have hswap : c.swap = c := by
    unfold APTEDOptions.swap
    cases c with
    | mk r d i => simp_all
  unfold compute_edit_distance
  rw [forest_dist_swap c t1.children t2.children, hswap,
    rename_cost_of_comm c t1 t2, hswap]

/-- The TSED formula as the spec states it (§4.2 / claim C1): base score
`max 0 (1 - d/m)` when `m > 0` and `1.0` when `m = 0`; with `size_penalty`,
multiply by `sqrt (min_size / 20)` if `min_size < 20`, then by `sqrt r` with
`r = min_size / max_size` if `r < 0.5`. Written from the spec's words, to be
compared with `calculate_tsed`, which is written from the source. -/
noncomputable def tsed_spec_formula (t1 t2 : TreeNode) (options : TSEDOptions) : ℝ :=
  let d := compute_edit_distance t1 t2 options.apted_options
  let m : ℝ := max (get_subtree_size t1 : ℝ) (get_subtree_size t2 : ℝ)
  let base := if m > 0 then max 0 (1 - d / m) else 1
  if options.size_penalty then
    let min_size : ℝ := min (get_subtree_size t1 : ℝ) (get_subtree_size t2 : ℝ)
    let s1 := if min_size < 20 then base * Real.sqrt (min_size / 20) else base
    let r := min_size / m
    if r < 0.5 then s1 * Real.sqrt r else s1
  else
    base

theorem compute_edit_distance_nonneg (t1 t2 : TreeNode) (c : APTEDOptions)
    (hr : 0 ≤ c.rename_cost) (hd : 0 ≤ c.delete_cost) (hi : 0 ≤ c.insert_cost) :
    0 ≤ compute_edit_distance t1 t2 c :=
  add_nonneg (forest_dist_nonneg c hr hd hi _ _) (rename_cost_of_nonneg c hr _ _)

theorem unit_mul_unit {a b : ℝ} (ha0 : 0 ≤ a) (ha1 : a ≤ 1) (hb0 : 0 ≤ b)
    (hb1 : b ≤ 1) : 0 ≤ a * b ∧ a * b ≤ 1 :=
  ⟨mul_nonneg ha0 hb0, mul_le_one₀ ha1 hb0 hb1⟩

theorem base_similarity_bounds {d m : ℝ} (hd : 0 ≤ d) :
    0 ≤ (if m > 0 then max (1 - d / m) 0 else 1)
      ∧ (if m > 0 then max (1 - d / m) 0 else 1) ≤ 1 := by
  split_ifs with hm
  · refine ⟨le_max_right _ _, max_le ?_ (by norm_num)⟩
    have : 0 ≤ d / m := div_nonneg hd hm.le
    linarith
  · exact ⟨by norm_num, le_refl 1⟩

theorem sqrt_factor_bounds {x : ℝ} (h1 : x ≤ 1) :
    0 ≤ Real.sqrt x ∧ Real.sqrt x ≤ 1 :=
  ⟨Real.sqrt_nonneg x, Real.sqrt_le_one.mpr h1⟩

theorem penalty_step_bounds {s f : ℝ} (hs : 0 ≤ s ∧ s ≤ 1) (c : Prop)
    [Decidable c] (hf0 : 0 ≤ f) (hf1 : c → f ≤ 1) :
    0 ≤ (if c then s * f else s) ∧ (if c then s * f else s) ≤ 1 := by
  split_ifs with hc
  · exact unit_mul_unit hs.1 hs.2 hf0 (hf1 hc)
  · exact hs

/-- Example tree: a two-node tree (a `module` root with one `identifier`). -/
def tree_a : TreeNode := .mk "module" "" 0 [.mk "identifier" "x" 1 []]

/-- The default options of `TSEDOptions::default()`: rename 0.3, delete 1.0,
insert 1.0, `min_lines` 5, `size_penalty` on. -/
def opts_default : TSEDOptions := ⟨⟨0.3, 1, 1⟩, 5, true⟩

/-- Default costs with `size_penalty` disabled. -/
def opts_nopenalty : TSEDOptions := ⟨⟨0.3, 1, 1⟩, 5, false⟩

/-- C1: for every pair of trees and options, `calculate_tsed` returns exactly
the spec formula: base score `max 0 (1 - d/m)` when `m > 0` and `1.0` when
`m = 0`; when `size_penalty` is true it is multiplied by `sqrt (min_size/20)`
if `min_size < 20` and afterwards by `sqrt r` if `r = min_size/max_size < 0.5`,
the penalties compounding multiplicatively in that order. -/
theorem calculate_tsed_eq_spec_formula (t1 t2 : TreeNode) (options : TSEDOptions) :
    calculate_tsed t1 t2 options = tsed_spec_formula t1 t2 options := by
  simp only [calculate_tsed, tsed_spec_formula, max_comm]

/-- C2: for every pair of trees and every `TSEDOptions` value with
non-negative costs (any `size_penalty` setting), `calculate_tsed` returns a
value in `[0, 1]`. -/
theorem calculate_tsed_mem_unit_interval (t1 t2 : TreeNode) (options : TSEDOptions)
    (hr : 0 ≤ options.apted_options.rename_cost)
    (hd : 0 ≤ options.apted_options.delete_cost)
    (hi : 0 ≤ options.apted_options.insert_cost) :
    0 ≤ calculate_tsed t1 t2 options ∧ calculate_tsed t1 t2 options ≤ 1 := by
  have hdist := compute_edit_distance_nonneg t1 t2 options.apted_options hr hd hi
  have hs1 : (0 : ℝ) ≤ (get_subtree_size t1 : ℝ) := Nat.cast_nonneg _
  have hs2 : (0 : ℝ) ≤ (get_subtree_size t2 : ℝ) := Nat.cast_nonneg _
  have hbase := base_similarity_bounds
    (m := max (get_subtree_size t1 : ℝ) (get_subtree_size t2 : ℝ)) hdist
  have hratio : 0 ≤ min ((get_subtree_size t1 : ℝ)) ((get_subtree_size t2 : ℝ))
      / max ((get_subtree_size t1 : ℝ)) ((get_subtree_size t2 : ℝ)) :=
    div_nonneg (le_min hs1 hs2) (le_trans hs1 (le_max_left _ _))
  simp only [calculate_tsed]
  by_cases hpen : options.size_penalty
  · simp only [hpen, if_true]
    refine penalty_step_bounds (penalty_step_bounds hbase _ (Real.sqrt_nonneg _)
      (fun hc => Real.sqrt_le_one.mpr (by
        rw [div_le_one (by norm_num : (0:ℝ) < 20)]
        linarith))) _ (Real.sqrt_nonneg _)
      (fun hc => Real.sqrt_le_one.mpr (by linarith))
  · simp only [hpen, if_false, Bool.false_eq_true]
    exact hbase

/-- C2 witness: the bound instantiated at the concrete two-node tree and the
default options. -/
theorem calculate_tsed_mem_unit_interval_witness :
    0 ≤ calculate_tsed tree_a tree_a opts_default
      ∧ calculate_tsed tree_a tree_a opts_default ≤ 1 :=
  calculate_tsed_mem_unit_interval tree_a tree_a opts_default
    (by norm_num [opts_default]) (by norm_num [opts_default])
    (by norm_num [opts_default])

/-- C3: for every tree `T` (and valid, i.e. non-negative, costs),
`calculate_tsed T T options = 1` whenever `size_penalty` is off or
`size T ≥ 20`, using that the APTED distance of a tree to itself is `0`. -/
theorem calculate_tsed_self_eq_one (t : TreeNode) (options : TSEDOptions)
    (hr : 0 ≤ options.apted_options.rename_cost)
    (hd : 0 ≤ options.apted_options.delete_cost)
    (hi : 0 ≤ options.apted_options.insert_cost)
    (hcond : options.size_penalty = false ∨ 20 ≤ get_subtree_size t) :
    calculate_tsed t t options = 1 := by
  have hzero := compute_edit_distance_self t options.apted_options hr hd hi
  have hpos : (0 : ℝ) < (get_subtree_size t : ℝ) := by
    exact_mod_cast get_subtree_size_pos t
  simp only [calculate_tsed, hzero, max_self, min_self, zero_div, sub_zero]
  rw [div_self (ne_of_gt hpos)]
  rcases hcond with hp | hsz
  · simp [hp, hpos]
  · by_cases hp : options.size_penalty
    · have h20 : ¬ ((get_subtree_size t : ℝ) < 20) := by
        push_neg
        exact_mod_cast hsz
      simp [hp, hpos, h20]
    · simp [hp, hpos]

/-- C3 witness: identical two-node trees with `size_penalty` off score `1`. -/
theorem calculate_tsed_self_eq_one_witness :
    calculate_tsed tree_a tree_a opts_nopenalty = 1 :=
  calculate_tsed_self_eq_one tree_a opts_nopenalty
    (by norm_num [opts_nopenalty]) (by norm_num [opts_nopenalty])
    (by norm_num [opts_nopenalty]) (Or.inl rfl)

/-- C4: when `insert_cost = delete_cost` the APTED edit distance is symmetric,
and consequently `calculate_tsed` is symmetric in its two tree arguments. -/
theorem edit_distance_and_tsed_symm (t1 t2 : TreeNode) (options : TSEDOptions)
    (h : options.apted_options.insert_cost = options.apted_options.delete_cost) :
    compute_edit_distance t1 t2 options.apted_options
        = compute_edit_distance t2 t1 options.apted_options
      ∧ calculate_tsed t1 t2 options = calculate_tsed t2 t1 options := by
  have hsym := compute_edit_distance_symm t1 t2 options.apted_options h
  refine ⟨hsym, ?_⟩
  simp only [calculate_tsed, hsym,
    max_comm ((get_subtree_size t1 : ℝ)) ((get_subtree_size t2 : ℝ)),
    min_comm ((get_subtree_size t1 : ℝ)) ((get_subtree_size t2 : ℝ))]

/-- C4 witness: symmetry instantiated at two concrete trees under the default
costs (insert = delete = 1). -/
theorem edit_distance_and_tsed_symm_witness :
    compute_edit_distance tree_a (TreeNode.mk "module" "" 0 []) opts_default.apted_options
        = compute_edit_distance (TreeNode.mk "module" "" 0 []) tree_a opts_default.apted_options
      ∧ calculate_tsed tree_a (TreeNode.mk "module" "" 0 []) opts_default
        = calculate_tsed (TreeNode.mk "module" "" 0 []) tree_a opts_default :=
  edit_distance_and_tsed_symm tree_a (TreeNode.mk "module" "" 0 []) opts_default rfl

/-- C10: for every tree `T` with `size T < 20` (the size is always at least 1)
and non-negative costs, `calculate_tsed T T options` with `size_penalty` on
returns exactly `sqrt (size T / 20)`, which is strictly less than `1`:
identical short functions never score `1.0` under the default options. -/
theorem calculate_tsed_self_short_penalty (t : TreeNode) (options : TSEDOptions)
    (hr : 0 ≤ options.apted_options.rename_cost)
    (hd : 0 ≤ options.apted_options.delete_cost)
    (hi : 0 ≤ options.apted_options.insert_cost)
    (hpen : options.size_penalty = true)
    (hlt : get_subtree_size t < 20) :
    calculate_tsed t t options = Real.sqrt ((get_subtree_size t : ℝ) / 20)
      ∧ calculate_tsed t t options < 1 := by
  have hzero := compute_edit_distance_self t options.apted_options hr hd hi
  have hpos : (0 : ℝ) < (get_subtree_size t : ℝ) := by
    exact_mod_cast get_subtree_size_pos t
  have hlt' : (get_subtree_size t : ℝ) < 20 := by exact_mod_cast hlt
  have heq : calculate_tsed t t options = Real.sqrt ((get_subtree_size t : ℝ) / 20) := by
    simp only [calculate_tsed, hzero, max_self, min_self, zero_div, sub_zero]
    rw [div_self (ne_of_gt hpos)]
    simp [hpen, hpos, hlt']
  refine ⟨heq, ?_⟩
  rw [heq]
  have : Real.sqrt ((get_subtree_size t : ℝ) / 20) < Real.sqrt 1 := by
    apply Real.sqrt_lt_sqrt (div_nonneg hpos.le (by norm_num))
    rw [div_lt_one (by norm_num : (0:ℝ) < 20)]
    linarith
  simpa [Real.sqrt_one] using this

/-- C10 witness: the concrete two-node tree under the default options scores
exactly `sqrt (2/20) < 1` against itself. -/
theorem calculate_tsed_self_short_penalty_witness :
    calculate_tsed tree_a tree_a opts_default
        = Real.sqrt ((get_subtree_size tree_a : ℝ) / 20)
      ∧ calculate_tsed tree_a tree_a opts_default < 1 :=
  calculate_tsed_self_short_penalty tree_a opts_default
    (by norm_num [opts_default]) (by norm_num [opts_default])
    (by norm_num [opts_default]) rfl
    (by simp [tree_a, get_subtree_size, forest_size])

/-!
The Python parser adapter (`python_parser.rs`). The external collaborator is
the tree-sitter concrete syntax tree; it is modelled as `CST`: a node carries
its grammar `kind`, its source `text` (`utf8_text`), the field tag it has
inside its parent (`field`, for `child_by_field_name`), its 0-based start and
end rows (`start_position().row`, `end_position().row`), and its ordered
`children` (tree-sitter `Node::children` yields every child, named or not).
-/

/-- A tree-sitter concrete syntax node. -/
inductive CST where
  | mk (kind : String) (text : String) (field : Option String)
       (startRow : Nat) (endRow : Nat) (children : List CST)

def CST.kind : CST → String
  | .mk k _ _ _ _ _ => k

def CST.text : CST → String
  | .mk _ t _ _ _ _ => t

def CST.field : CST → Option String
  | .mk _ _ f _ _ _ => f

def CST.startRow : CST → Nat
  | .mk _ _ _ r _ _ => r

def CST.endRow : CST → Nat
  | .mk _ _ _ _ r _ => r

def CST.children : CST → List CST
  | .mk _ _ _ _ _ cs => cs

/-- Tree-sitter `Node::child_by_field_name`: the first child carrying the
given field tag. -/
def child_by_field_name (n : CST) (f : String) : Option CST :=
  n.children.find? (fun c => c.field == some f)

mutual

def cst_size : CST → Nat
  | .mk _ _ _ _ _ cs => 1 + csts_size cs

def csts_size : List CST → Nat
  | [] => 0
  | c :: cs => cst_size c + csts_size cs

end

theorem cst_size_pos (c : CST) : 0 < cst_size c := by
  cases c with
  | mk k t f r1 r2 cs => simp [cst_size]

theorem csts_size_children_lt (n : CST) : csts_size n.children < cst_size n := by
  cases n with
  | mk k t f r1 r2 cs =>
    simp only [cst_size, CST.children]
    omega

/-- The match in `convert_node` selecting which node kinds keep their source
text as `value`: identifiers, literals, booleans and `none`. -/
def value_kind : String → Bool
  | "identifier" | "string" | "integer" | "float" | "true" | "false" | "none" => true
  | _ => false

mutual

/-- `PythonParser::convert_node`: assign the current pre-order id, take the
node kind as `label`, keep the source text as `value` for the weighted kinds
and the empty string otherwise, and convert all children in order, threading
the id counter. Returns the converted node and the final counter. -/
def convert_node (node : CST) (id_counter : Nat) : TreeNode × Nat :=
  match node with
  | .mk kind text _ _ _ children =>
      let current_id := id_counter
      let value := if value_kind kind then text else ""
      let r := convert_forest children (id_counter + 1)
      (TreeNode.mk kind value current_id r.1, r.2)

def convert_forest : List CST → Nat → List TreeNode × Nat
  | [], c => ([], c)
  | x :: xs, c =>
      let r1 := convert_node x c
      let r2 := convert_forest xs r1.2
      (r1.1 :: r2.1, r2.2)

end

/-- `PythonParser::parse`: convert the root node with the id counter started
at `0`. -/
def parse (root : CST) : TreeNode :=
  (convert_node root 0).1

/-- `GenericFunctionDef` (declared in `language_parser.rs`), the fields used
by `python_parser.rs`. -/
structure GenericFunctionDef where
  name : String
  start_line : Nat
  end_line : Nat
  body_start_line : Nat
  body_end_line : Nat
  parameters : List String
  is_method : Bool
  class_name : Option String
deriving DecidableEq

/-- `extract_params` from `python_parser.rs`: plain `identifier` children keep
their text; `typed_parameter` and `default_parameter` children contribute
their `name` field's text when present; everything else is skipped. -/
def extract_params : Option CST → List String
  | none => []
  | some node =>
      node.children.filterMap (fun child =>
        match child.kind with
        | "identifier" => some child.text
        | "typed_parameter" | "default_parameter" =>
            (child_by_field_name child "name").map CST.text
        | _ => none)

/-- The record pushed for a (possibly decorated) function definition:
`span_node` supplies `start_line`/`end_line`, `def_node` supplies the name,
parameters and body span. -/
def function_def_record (span_node def_node : CST) (name_node : CST)
    (class_name : Option String) : GenericFunctionDef :=
  { name := name_node.text
    start_line := span_node.startRow + 1
    end_line := span_node.endRow + 1
    body_start_line :=
      ((child_by_field_name def_node "body").map (fun b => b.startRow + 1)).getD 0
    body_end_line :=
      ((child_by_field_name def_node "body").map (fun b => b.endRow + 1)).getD 0
    parameters := extract_params (child_by_field_name def_node "parameters")
    is_method := class_name.isSome
    class_name := class_name }

mutual

/-- `visit_node` from `PythonParser::extract_functions_from_node`: records a
`function_definition` (without recursing into it); records the inner function
of a `decorated_definition` whose last child is a `function_definition`
(without recursing); enters a `class_definition` only when not already inside
a class, switching the context to the class name; and traverses the children
of every other node kind. -/
def visit_node (node : CST) (class_name : Option String) : List GenericFunctionDef :=
  match node.kind with
  | "function_definition" =>
      match child_by_field_name node "name" with
      | some name_node => [function_def_record node node name_node class_name]
      | none => []
  | "decorated_definition" =>
      match node.children.get? (node.children.length - 1) with
      | some child =>
          if child.kind = "function_definition" then
            match child_by_field_name child "name" with
            | some name_node => [function_def_record node child name_node class_name]
            | none => []
          else []
      | none => []
  | "class_definition" =>
      if class_name.isNone then
        match child_by_field_name node "name" with
        | some name_node => visit_forest node.children (some name_node.text)
        | none => []
      else []
  | _ => visit_forest node.children class_name
  termination_by (cst_size node, 0)
  decreasing_by
  all_goals
    have h := csts_size_children_lt node
    simp [Prod.lex_def]
    omega

def visit_forest : List CST → Option String → List GenericFunctionDef
  | [], _ => []
  | c :: cs, cn => visit_node c cn ++ visit_forest cs cn
  termination_by f _ => (csts_size f, 1)
  decreasing_by
  all_goals
    have h := cst_size_pos c
    simp [Prod.lex_def, csts_size]
    omega

end

/-- `PythonParser::extract_functions`: visit the root with no class context. -/
def extract_functions (root : CST) : List GenericFunctionDef :=
  visit_node root none

mutual

/-- Labels of a converted tree in pre-order. -/
def tree_labels : TreeNode → List String
  | .mk l _ _ cs => l :: forest_labels cs

def forest_labels : List TreeNode → List String
  | [] => []
  | t :: ts => tree_labels t ++ forest_labels ts

end

mutual

/-- Values of a converted tree in pre-order. -/
def tree_values : TreeNode → List String
  | .mk _ v _ cs => v :: forest_values cs

def forest_values : List TreeNode → List String
  | [] => []
  | t :: ts => tree_values t ++ forest_values ts

end

mutual

/-- Node ids of a converted tree in pre-order. -/
def tree_ids : TreeNode → List Nat
  | .mk _ _ i cs => i :: forest_ids cs

def forest_ids : List TreeNode → List Nat
  | [] => []
  | t :: ts => tree_ids t ++ forest_ids ts

end

mutual

/-- All subtrees of a tree (the tree itself included), in pre-order. -/
def subtrees : TreeNode → List TreeNode
  | .mk l v i cs => .mk l v i cs :: forest_subtrees cs

def forest_subtrees : List TreeNode → List TreeNode
  | [] => []
  | t :: ts => subtrees t ++ forest_subtrees ts

end

mutual

/-- Kinds of the concrete syntax nodes in pre-order. -/
def cst_kinds : CST → List String
  | .mk k _ _ _ _ cs => k :: csts_kinds cs

def csts_kinds : List CST → List String
  | [] => []
  | c :: cs => cst_kinds c ++ csts_kinds cs

end

mutual

/-- The value the spec's mapping assigns to each concrete syntax node, in
pre-order: the node's source text iff its kind is a semantically weighted
terminal, the empty string otherwise. -/
def cst_spec_values : CST → List String
  | .mk k t _ _ _ cs => (if value_kind k then t else "") :: csts_spec_values cs

def csts_spec_values : List CST → List String
  | [] => []
  | c :: cs => cst_spec_values c ++ csts_spec_values cs

end

theorem range'_append_one (s m n : Nat) :
    List.range' s m ++ List.range' (s + m) n = List.range' s (m + n) := by
  induction m generalizing s with
  | zero => simp
  | succ m ih =>
    rw [show m + 1 + n = (m + n) + 1 from by omega, List.range'_succ,
      List.range'_succ, List.cons_append,
      show s + (m + 1) = (s + 1) + m from by omega, ih (s + 1)]

theorem append_eq_range' {l1 l2 : List Nat} {a n : Nat}
    (h : l1 ++ l2 = List.range' a n) :
    l1 = List.range' a l1.length ∧ l2 = List.range' (a + l1.length) l2.length := by
  have hlen : n = l1.length + l2.length := by
    have hc := congrArg List.length h
    simpa using hc.symm
  subst hlen
  rw [← range'_append_one a l1.length l2.length] at h
  exact List.append_inj h (by simp)

/-- Master characterization of `convert_forest`: final counter, pre-order
labels, values and ids of the converted forest, total size, and the pre-order
id range of every subtree. -/
theorem convert_forest_spec :
    ∀ N f i, csts_size f ≤ N →
      (convert_forest f i).2 = i + csts_size f
      ∧ forest_labels (convert_forest f i).1 = csts_kinds f
      ∧ forest_values (convert_forest f i).1 = csts_spec_values f
      ∧ forest_ids (convert_forest f i).1 = List.range' i (csts_size f)
      ∧ forest_size (convert_forest f i).1 = csts_size f
      ∧ ∀ s ∈ forest_subtrees (convert_forest f i).1,
          tree_ids s = List.range' s.id (get_subtree_size s) := by
  intro N
  induction N with
  | zero =>
    intro f i hf
    cases f with
    | nil =>
      simp [convert_forest, forest_labels, forest_values, forest_ids,
        forest_size, forest_subtrees, csts_size, csts_kinds, csts_spec_values]
    | cons c cs =>
      exfalso
      have := cst_size_pos c
      simp only [csts_size] at hf
      omega
  | succ N ih =>
    intro f i hf
    cases f with
    | nil =>
      simp [convert_forest, forest_labels, forest_values, forest_ids,
        forest_size, forest_subtrees, csts_size, csts_kinds, csts_spec_values]
    | cons c cs =>
      cases c with
      | mk k x fl r1 r2 ch =>
        have hsz : csts_size (CST.mk k x fl r1 r2 ch :: cs)
            = (1 + csts_size ch) + csts_size cs := by
          simp [csts_size, cst_size]
        have hch : csts_size ch ≤ N := by rw [hsz] at hf; omega
        have hcs : csts_size cs ≤ N := by rw [hsz] at hf; omega
        obtain ⟨hc1, hl1, hv1, hi1, hs1, hsub1⟩ := ih ch (i + 1) hch
        obtain ⟨hc2, hl2, hv2, hi2, hs2, hsub2⟩ :=
          ih cs ((convert_forest ch (i + 1)).2) hcs
        simp only [convert_forest, convert_node, csts_size, cst_size,
          csts_kinds, cst_kinds, csts_spec_values, cst_spec_values,
          forest_labels, tree_labels, forest_values, tree_values,
          forest_ids, tree_ids, forest_size, get_subtree_size,
          forest_subtrees, subtrees]
        rw [hc1] at hc2 hl2 hv2 hi2 hs2 hsub2 ⊢
        refine ⟨by rw [hc2]; omega, ?_, ?_, ?_, by rw [hs1, hs2], ?_⟩
        · rw [hl1, hl2]
        · rw [hv1, hv2]
        · rw [hi1, hi2, List.cons_append, range'_append_one]
          have h1 : csts_size ch + csts_size cs + 1
              = 1 + csts_size ch + csts_size cs := by omega
          rw [← List.range'_succ, h1]
        · intro s hs
          rw [List.cons_append, List.mem_cons, List.mem_append] at hs
          rcases hs with hself | hmem | hmem
          · subst hself
            simp only [tree_ids, TreeNode.id, get_subtree_size]
            rw [hi1, hs1, Nat.add_comm 1 (csts_size ch), List.range'_succ]
          · exact hsub1 s hmem
          · exact hsub2 s hmem

/-- Characterization of `convert_node`: counter, pre-order labels, values and
ids, size, root id, and the id range of every subtree. -/
theorem convert_node_spec (c : CST) (i : Nat) :
    (convert_node c i).2 = i + cst_size c
    ∧ tree_labels (convert_node c i).1 = cst_kinds c
    ∧ tree_values (convert_node c i).1 = cst_spec_values c
    ∧ tree_ids (convert_node c i).1 = List.range' i (cst_size c)
    ∧ get_subtree_size (convert_node c i).1 = cst_size c
    ∧ (convert_node c i).1.id = i
    ∧ ∀ s ∈ subtrees (convert_node c i).1,
        tree_ids s = List.range' s.id (get_subtree_size s) := by
  cases c with
  | mk k x fl r1 r2 ch =>
    obtain ⟨hc1, hl1, hv1, hi1, hs1, hsub1⟩ :=
      convert_forest_spec (csts_size ch) ch (i + 1) le_rfl
    simp only [convert_node, cst_size, cst_kinds, cst_spec_values,
      tree_labels, tree_values, tree_ids, get_subtree_size, TreeNode.id,
      subtrees]
    refine ⟨by rw [hc1]; omega, by rw [hl1], by rw [hv1], ?_, by rw [hs1],
      by trivial, ?_⟩
    · rw [hi1, Nat.add_comm 1 (csts_size ch), List.range'_succ]
    · intro s hs
      rw [List.mem_cons] at hs
      rcases hs with hself | hmem
      · subst hself
        simp only [tree_ids, TreeNode.id, get_subtree_size]
        rw [hi1, hs1, Nat.add_comm 1 (csts_size ch), List.range'_succ]
      · exact hsub1 s hmem

/-- A module whose only child is a comment node, as tree-sitter produces for
a Python source consisting of a lone comment line. -/
def cst_with_comment : CST :=
  .mk "module" "# note" none 0 0 [.mk "comment" "# note" none 0 0 []]

/-- C5 counterexample: the claim says the tree produced by `parse` contains no
nodes for comments, but `convert_node` converts every concrete syntax child,
so a comment node in the concrete syntax tree yields a tree node labelled
`comment`. -/
theorem parse_keeps_comment_nodes :
    "comment" ∈ tree_labels (parse cst_with_comment) := by
  simp [parse, cst_with_comment, convert_node, convert_forest,
    tree_labels, forest_labels]

/-- C5 (amended): the conversion is node-for-node. In pre-order, the labels of
the tree produced by `parse` are exactly the kinds of the concrete syntax
nodes, and each value is the node's source text iff its kind is a semantically
weighted terminal (identifier, string/integer/float literal, boolean, none)
and empty otherwise. No node is excluded, so comment nodes present in the
concrete syntax tree are converted like any other node (whitespace produces no
concrete syntax nodes at all). -/
theorem parse_maps_nodes_one_to_one (c : CST) :
    tree_labels (parse c) = cst_kinds c
      ∧ tree_values (parse c) = cst_spec_values c := by
  obtain ⟨-, hl, hv, -, -, -, -⟩ := convert_node_spec c 0
  exact ⟨hl, hv⟩

theorem mem_subtrees_self (t : TreeNode) : t ∈ subtrees t := by
  cases t with
  | mk l v i cs => simp [subtrees]

theorem mem_forest_subtrees_of_mem {t : TreeNode} {ts : List TreeNode}
    (ht : t ∈ ts) {s : TreeNode} (hs : s ∈ subtrees t) :
    s ∈ forest_subtrees ts := by
  induction ts with
  | nil => cases ht
  | cons x xs ih =>
    rw [List.mem_cons] at ht
    simp only [forest_subtrees, List.mem_append]
    rcases ht with hx | hxs
    · exact Or.inl (hx ▸ hs)
    · exact Or.inr (ih hxs)

theorem forest_subtrees_id_mem :
    ∀ N (ts : List TreeNode), forest_size ts ≤ N →
      ∀ s ∈ forest_subtrees ts, s.id ∈ forest_ids ts := by
  intro N
  induction N with
  | zero =>
    intro ts hts s hs
    cases ts with
    | nil => simp [forest_subtrees] at hs
    | cons t ts' =>
      exfalso
      have := get_subtree_size_pos t
      simp only [forest_size] at hts
      omega
  | succ N ih =>
    intro ts hts s hs
    cases ts with
    | nil => simp [forest_subtrees] at hs
    | cons t ts' =>
      cases t with
      | mk l v j cs =>
        have hszc : forest_size cs ≤ N := by
          have h1 := forest_size_children_lt (TreeNode.mk l v j cs)
          simp only [forest_size] at hts
          simp only [TreeNode.children] at h1
          omega
        have hszt : forest_size ts' ≤ N := by
          have h1 := get_subtree_size_pos (TreeNode.mk l v j cs)
          simp only [forest_size] at hts
          omega
        simp only [forest_subtrees, subtrees, List.cons_append,
          List.mem_cons, List.mem_append] at hs
        simp only [forest_ids, tree_ids, List.cons_append, List.mem_cons,
          List.mem_append]
        rcases hs with hself | hcs | hts'
        · subst hself
          exact Or.inl rfl
        · exact Or.inr (Or.inl (ih cs hszc s hcs))
        · exact Or.inr (Or.inr (ih ts' hszt s hts'))

theorem forest_subtrees_trans :
    ∀ N (ts : List TreeNode), forest_size ts ≤ N →
      ∀ s ∈ forest_subtrees ts, ∀ u ∈ subtrees s, u ∈ forest_subtrees ts := by
  intro N
  induction N with
  | zero =>
    intro ts hts s hs
    cases ts with
    | nil => simp [forest_subtrees] at hs
    | cons t ts' =>
      exfalso
      have := get_subtree_size_pos t
      simp only [forest_size] at hts
      omega
  | succ N ih =>
    intro ts hts s hs u hu
    cases ts with
    | nil => simp [forest_subtrees] at hs
    | cons t ts' =>
      cases t with
      | mk l v j cs =>
        have hszc : forest_size cs ≤ N := by
          have h1 := forest_size_children_lt (TreeNode.mk l v j cs)
          simp only [forest_size] at hts
          simp only [TreeNode.children] at h1
          omega
        have hszt : forest_size ts' ≤ N := by
          have h1 := get_subtree_size_pos (TreeNode.mk l v j cs)
          simp only [forest_size] at hts
          omega
        simp only [forest_subtrees, subtrees, List.cons_append,
          List.mem_cons, List.mem_append] at hs
        simp only [forest_subtrees, subtrees, List.cons_append,
          List.mem_cons, List.mem_append]
        rcases hs with hself | hcs | hts'
        · subst hself
          simp only [subtrees, List.mem_cons] at hu
          rcases hu with h1 | h2
          · exact Or.inl h1
          · exact Or.inr (Or.inl h2)
        · exact Or.inr (Or.inl (ih cs hszc s hcs u hu))
        · exact Or.inr (Or.inr (ih ts' hszt s hts' u hu))

/-- Transitivity: a subtree of a subtree of `t` is a subtree of `t`. -/
theorem subtrees_trans {t s u : TreeNode} (hs : s ∈ subtrees t)
    (hu : u ∈ subtrees s) : u ∈ subtrees t := by
  cases t with
  | mk l v j cs =>
    simp only [subtrees, List.mem_cons] at hs ⊢
    rcases hs with hself | hcs
    · subst hself
      simp only [subtrees, List.mem_cons] at hu
      exact hu
    · exact Or.inr (forest_subtrees_trans (forest_size cs) cs le_rfl s hcs u hu)

theorem mem_subtrees_of_mem_children {s u : TreeNode}
    (h : u ∈ forest_subtrees s.children) : u ∈ subtrees s := by
  cases s with
  | mk l v j cs =>
    simp only [TreeNode.children] at h
    simp only [subtrees, List.mem_cons]
    exact Or.inr h

theorem forest_ids_of_subtree {s : TreeNode}
    (h : tree_ids s = List.range' s.id (get_subtree_size s)) :
    forest_ids s.children = List.range' (s.id + 1) (forest_size s.children) := by
  cases s with
  | mk l v j cs =>
    simp only [tree_ids, TreeNode.id, get_subtree_size, TreeNode.children] at h ⊢
    rw [Nat.add_comm 1 (forest_size cs), List.range'_succ] at h
    injection h

theorem sibling_subtree_ids_lt :
    ∀ (ts : List TreeNode) (a : Nat),
      forest_ids ts = List.range' a (forest_size ts) →
      (∀ t ∈ ts, tree_ids t = List.range' t.id (get_subtree_size t)) →
      ∀ (i j : Nat) (hi : i < ts.length) (hj : j < ts.length), i < j →
        ∀ s' ∈ subtrees (ts.get ⟨j, hj⟩), (ts.get ⟨i, hi⟩).id < s'.id := by
  intro ts
  induction ts with
  | nil =>
    intro a h1 h2 i j hi
    exact absurd hi (by simp)
  | cons t ts' ih =>
    intro a hids hall i j hi hj hij s' hs'
    have ht : tree_ids t = List.range' t.id (get_subtree_size t) :=
      hall t (List.mem_cons_self t ts')
    have hlen : (tree_ids t).length = get_subtree_size t := by rw [ht]; simp
    have happ : tree_ids t ++ forest_ids ts'
        = List.range' a (forest_size (t :: ts')) := by
      simpa [forest_ids] using hids
    obtain ⟨h1, h2⟩ := append_eq_range' happ
    have hlen2 : (forest_ids ts').length = forest_size ts' := by
      have hc := congrArg List.length happ
      simp only [List.length_append, List.length_range'] at hc
      simp only [forest_size] at hc
      omega
    have hfi : forest_ids ts'
        = List.range' (a + get_subtree_size t) (forest_size ts') := by
      rw [hlen, hlen2] at h2
      exact h2
    have hta : t.id = a := by
      rw [hlen] at h1
      have heq : List.range' t.id (get_subtree_size t)
          = List.range' a (get_subtree_size t) := by rw [← ht, h1]
      cases hk : get_subtree_size t with
      | zero =>
        have := get_subtree_size_pos t
        omega
      | succ k =>
        rw [hk, List.range'_succ, List.range'_succ] at heq
        injection heq with hh _
    cases i with
    | zero =>
      cases j with
      | zero => omega
      | succ j' =>
        have hj' : j' < ts'.length := by simpa using hj
        have hmem : s' ∈ forest_subtrees ts' :=
          mem_forest_subtrees_of_mem (List.get_mem ts' j' hj') hs'
        have hid : s'.id ∈ forest_ids ts' :=
          forest_subtrees_id_mem (forest_size ts') ts' le_rfl s' hmem
        rw [hfi] at hid
        have hrange := List.mem_range'_1.mp hid
        have hpos := get_subtree_size_pos t
        show t.id < s'.id
        omega
    | succ i' =>
      cases j with
      | zero => omega
      | succ j' =>
        have hi' : i' < ts'.length := by simpa using hi
        have hj' : j' < ts'.length := by simpa using hj
        have := ih (a + get_subtree_size t) hfi
          (fun t' ht' => hall t' (List.mem_cons_of_mem t ht'))
          i' j' hi' hj' (by omega) s' hs'
        exact this

/-- C8: for every tree built by `parse`, the pre-order list of node ids is
exactly `[0, N)` where `N` is the node count (hence contiguous and pairwise
distinct), every subtree's pre-order ids form the contiguous range starting at
its own root id (the pre-order numbering), each node's id is smaller than
every id inside its children's subtrees, and a child's id is smaller than
every id in its right siblings' subtrees. -/
theorem parse_ids_preorder (c : CST) :
    tree_ids (parse c) = List.range (get_subtree_size (parse c))
    ∧ (tree_ids (parse c)).Nodup
    ∧ (∀ s ∈ subtrees (parse c),
        tree_ids s = List.range' s.id (get_subtree_size s))
    ∧ (∀ s ∈ subtrees (parse c), ∀ s' ∈ forest_subtrees s.children,
        s.id < s'.id)
    ∧ (∀ s ∈ subtrees (parse c), ∀ (i j : Nat) (hi : i < s.children.length)
        (hj : j < s.children.length), i < j →
        ∀ s' ∈ subtrees (s.children.get ⟨j, hj⟩),
          (s.children.get ⟨i, hi⟩).id < s'.id) := by
  obtain ⟨-, -, -, hids, hsize, hid0, hsub⟩ := convert_node_spec c 0
  simp only [parse]
  refine ⟨?_, ?_, hsub, ?_, ?_⟩
  · rw [List.range_eq_range', hsize, hids]
  · rw [hids, ← List.range_eq_range']
    exact List.nodup_range _
  · intro s hs s' hs'
    have hts := hsub s hs
    have hfi := forest_ids_of_subtree hts
    have hid' : s'.id ∈ forest_ids s.children :=
      forest_subtrees_id_mem (forest_size s.children) s.children le_rfl s' hs'
    rw [hfi] at hid'
    have := List.mem_range'_1.mp hid'
    omega
  · intro s hs i j hi hj hij s' hs'
    have hts := hsub s hs
    have hfi := forest_ids_of_subtree hts
    refine sibling_subtree_ids_lt s.children (s.id + 1) hfi ?_ i j hi hj hij s' hs'
    intro t ht
    refine hsub t (subtrees_trans hs ?_)
    exact mem_subtrees_of_mem_children
      (mem_forest_subtrees_of_mem ht (mem_subtrees_self t))

/-- C8 witness: the id characterization instantiated at the concrete
comment-module tree; the subtree clause applied at the root itself. -/
theorem parse_ids_preorder_witness :
    tree_ids (parse cst_with_comment)
        = List.range (get_subtree_size (parse cst_with_comment))
    ∧ tree_ids (parse cst_with_comment)
        = List.range' (parse cst_with_comment).id
            (get_subtree_size (parse cst_with_comment)) :=
  ⟨(parse_ids_preorder cst_with_comment).1,
   (parse_ids_preorder cst_with_comment).2.2.1 (parse cst_with_comment)
     (mem_subtrees_self (parse cst_with_comment))⟩

/-- The method `m` of the inner class: `def m(self): ...` spanning lines 3-4
(0-based rows 2-3). -/
def cst_method_m : CST :=
  .mk "function_definition" "" none 2 3
    [.mk "def" "" none 2 2 [],
     .mk "identifier" "m" (some "name") 2 2 [],
     .mk "parameters" "" (some "parameters") 2 2
       [.mk "identifier" "self" none 2 2 []],
     .mk ":" "" none 2 2 [],
     .mk "block" "" (some "body") 3 3 []]

/-- `class Inner:` containing the method `m`. -/
def cst_inner_class : CST :=
  .mk "class_definition" "" none 1 3
    [.mk "class" "" none 1 1 [],
     .mk "identifier" "Inner" (some "name") 1 1 [],
     .mk ":" "" none 1 1 [],
     .mk "block" "" (some "body") 2 3 [cst_method_m]]

/-- `class Outer:` containing `class Inner`. -/
def cst_outer_class : CST :=
  .mk "class_definition" "" none 0 3
    [.mk "class" "" none 0 0 [],
     .mk "identifier" "Outer" (some "name") 0 0 [],
     .mk ":" "" none 0 0 [],
     .mk "block" "" (some "body") 1 3 [cst_inner_class]]

/-- A module holding a class nested inside another class. -/
def cst_nested_module : CST :=
  .mk "module" "" none 0 3 [cst_outer_class]

/-- C6 counterexample: on a module with `class Outer` containing `class Inner`
with method `m`, the extractor reports the inner method zero times, not
exactly once as the claim states — in fact it reports nothing at all. -/
theorem inner_class_method_not_reported :
    (extract_functions cst_nested_module).countP (fun r => r.name == "m") = 0
    ∧ ¬ ((extract_functions cst_nested_module).countP
          (fun r => r.name == "m") = 1) := by
  have h : extract_functions cst_nested_module = [] := by
    simp [extract_functions, cst_nested_module, cst_outer_class,
      cst_inner_class, cst_method_m, visit_node, visit_forest,
      child_by_field_name, CST.children, CST.kind, CST.field]
  rw [h]
  simp

/-- C6 (amended): the extractor does not descend into a nested class from an
outer class context; visiting a `class_definition` node while already inside a
class context produces nothing at all, so a method of an inner class is
reported zero times — not once. -/
theorem nested_class_not_descended (n : CST) (c : String)
    (hk : n.kind = "class_definition") :
    visit_node n (some c) = [] := by
  cases n with
  | mk k t fl r1 r2 cs =>
    simp only [CST.kind] at hk
    subst hk
    simp [visit_node, CST.kind]

/-- C6 witness: the inner class of the concrete example, visited in the
`Outer` context, yields nothing. -/
theorem nested_class_not_descended_witness :
    visit_node cst_inner_class (some "Outer") = [] :=
  nested_class_not_descended cst_inner_class "Outer" rfl

/-- C7: for a `decorated_definition` node whose last child is a
`function_definition` with a name and a body, the extractor produces exactly
one record taking its name, parameters and body span from the inner function,
while `start_line..end_line` spans the whole decorated node. Consequently
(second conjunct), for any decorator child lying within the decorated node's
rows and ending before the body starts — as tree-sitter guarantees — the
decorator's lines fall inside `start_line..end_line` (`n.startRow + 1` to
`n.endRow + 1`) but strictly before `body_start_line` (`b.startRow + 1`). -/
theorem decorated_definition_record (n inner nm b : CST) (cn : Option String)
    (hk : n.kind = "decorated_definition")
    (hlast : n.children.get? (n.children.length - 1) = some inner)
    (hik : inner.kind = "function_definition")
    (hnm : child_by_field_name inner "name" = some nm)
    (hb : child_by_field_name inner "body" = some b) :
    visit_node n cn
      = [{ name := nm.text
           start_line := n.startRow + 1
           end_line := n.endRow + 1
           body_start_line := b.startRow + 1
           body_end_line := b.endRow + 1
           parameters := extract_params (child_by_field_name inner "parameters")
           is_method := cn.isSome
           class_name := cn }]
    ∧ (∀ d ∈ n.children, d.kind = "decorator" →
        n.startRow ≤ d.startRow → d.endRow ≤ n.endRow → d.endRow < b.startRow →
        n.startRow + 1 ≤ d.startRow + 1 ∧ d.endRow + 1 ≤ n.endRow + 1
          ∧ d.endRow + 1 < b.startRow + 1) := by
  constructor
  · cases n with
    | mk k t fl r1 r2 cs =>
      cases inner with
      | mk ik it ifl ir1 ir2 ics =>
        simp only [CST.kind] at hk hik
        subst hk
        subst hik
        simp only [CST.children] at hlast
        rw [List.get?_eq_getElem?] at hlast
        simp [visit_node, CST.kind, hlast, hnm, hb, function_def_record,
          CST.children]
  · intro d hd hdk h1 h2 h3
    omega

/-- The inner function of the decorated example: `def g(x): ...` on rows
1-2, with its body block on row 2. -/
def cst_fn_g : CST :=
  .mk "function_definition" "" none 1 2
    [.mk "def" "" none 1 1 [],
     .mk "identifier" "g" (some "name") 1 1 [],
     .mk "parameters" "" (some "parameters") 1 1
       [.mk "identifier" "x" none 1 1 []],
     .mk ":" "" none 1 1 [],
     .mk "block" "" (some "body") 2 2 []]

/-- A decorated definition: a decorator on row 0 followed by `cst_fn_g`. -/
def cst_decorated_g : CST :=
  .mk "decorated_definition" "" none 0 2
    [.mk "decorator" "@dec" none 0 0 [], cst_fn_g]

/-- C7 witness: the decorated example yields the single record with name `g`,
whole-node line span 1..3 and body span 3..3, and the decorator line lies
inside the whole span but before the body. -/
theorem decorated_definition_record_witness :
    visit_node cst_decorated_g none
      = [{ name := "g"
           start_line := 1
           end_line := 3
           body_start_line := 3
           body_end_line := 3
           parameters := ["x"]
           is_method := false
           class_name := none }]
    ∧ (0 + 1 ≤ 0 + 1 ∧ 0 + 1 ≤ 2 + 1 ∧ 0 + 1 < 2 + 1) := by
  have h := decorated_definition_record cst_decorated_g cst_fn_g
    (CST.mk "identifier" "g" (some "name") 1 1 [])
    (CST.mk "block" "" (some "body") 2 2 []) none
    rfl rfl rfl rfl rfl
  refine ⟨?_, ?_⟩
  · rw [h.1]
    simp [cst_fn_g, extract_params, child_by_field_name, CST.children,
      CST.kind, CST.text, CST.field, cst_decorated_g, CST.startRow, CST.endRow]
  · exact h.2 (CST.mk "decorator" "@dec" none 0 0 [])
      (by simp [cst_decorated_g, CST.children]) rfl
      (by simp [cst_decorated_g, CST.startRow])
      (by simp [cst_decorated_g, CST.endRow])
      (by simp [CST.endRow, CST.startRow])

theorem cst_size_le_of_mem {c : CST} {f : List CST} (h : c ∈ f) :
    cst_size c ≤ csts_size f := by
  induction f with
  | nil => cases h
  | cons x xs ih =>
    rw [List.mem_cons] at h
    simp only [csts_size]
    rcases h with hx | hxs
    · subst hx
      omega
    · have := ih hxs
      omega

theorem visit_forest_mem {f : List CST} {cn : Option String}
    {r : GenericFunctionDef} (h : r ∈ visit_forest f cn) :
    ∃ c ∈ f, r ∈ visit_node c cn := by
  induction f with
  | nil => simp [visit_forest] at h
  | cons c cs ih =>
    simp only [visit_forest, List.mem_append] at h
    rcases h with hc | hcs
    · exact ⟨c, List.mem_cons_self c cs, hc⟩
    · obtain ⟨c', hc', hr⟩ := ih hcs
      exact ⟨c', List.mem_cons_of_mem c hc', hr⟩

/-- The positions the extractor's traversal can reach, written from the
claim's wording: starting at node `n` in class context `cn`, the traversal
reaches `m` in context `cn'` only by stepping into children of nodes that are
neither `function_definition` nor `decorated_definition` nor
`class_definition`, or into children of a `class_definition` visited from the
top-level (no-class) context, switching the context to that class's name. By
construction no reachable position lies inside a `function_definition` or
`decorated_definition`, and none lies inside a class nested in another
class. -/
inductive Reaches : CST → Option String → CST → Option String → Prop where
  | refl (n : CST) (cn : Option String) : Reaches n cn n cn
  | through_other (n : CST) (cn : Option String) (c m : CST)
      (cn' : Option String) :
      n.kind ≠ "function_definition" → n.kind ≠ "decorated_definition" →
      n.kind ≠ "class_definition" →
      c ∈ n.children → Reaches c cn m cn' → Reaches n cn m cn'
  | through_class (n c m nm : CST) (cn' : Option String) :
      n.kind = "class_definition" →
      child_by_field_name n "name" = some nm →
      c ∈ n.children → Reaches c (some nm.text) m cn' →
      Reaches n none m cn'

/-- C9: every record reported by `visit_node` originates from a
`function_definition`, or a `decorated_definition` wrapping one, located at a
position the traversal reaches; since `Reaches` never steps into the children
of a `function_definition` or `decorated_definition` — once such a node is
recorded the traversal does not recurse into it — no reported definition is
nested inside another function's body, and since `Reaches` steps into a
`class_definition` only from the no-class context, only module-level and
direct class-level definitions can appear in the result. -/
theorem visit_node_reports_only_reachable_defs (n : CST) (cn : Option String) :
    ∀ r ∈ visit_node n cn, ∃ m cn',
      Reaches n cn m cn'
      ∧ ((m.kind = "function_definition"
            ∧ ∃ nm, child_by_field_name m "name" = some nm
                ∧ r = function_def_record m m nm cn')
        ∨ (m.kind = "decorated_definition"
            ∧ ∃ inner nm,
                m.children.get? (m.children.length - 1) = some inner
                ∧ inner.kind = "function_definition"
                ∧ child_by_field_name inner "name" = some nm
                ∧ r = function_def_record m inner nm cn')) := by
  have key : ∀ N (n : CST) (cn : Option String), cst_size n ≤ N →
      ∀ r ∈ visit_node n cn, ∃ m cn',
        Reaches n cn m cn'
        ∧ ((m.kind = "function_definition"
              ∧ ∃ nm, child_by_field_name m "name" = some nm
                  ∧ r = function_def_record m m nm cn')
          ∨ (m.kind = "decorated_definition"
              ∧ ∃ inner nm,
                  m.children.get? (m.children.length - 1) = some inner
                  ∧ inner.kind = "function_definition"
                  ∧ child_by_field_name inner "name" = some nm
                  ∧ r = function_def_record m inner nm cn')) := by
    intro N
    induction N with
    | zero =>
      intro n cn hsz
      exact absurd hsz (by have := cst_size_pos n; omega)
    | succ N ih =>
      intro n cn hsz r hr
      by_cases hk1 : n.kind = "function_definition"
      · rw [visit_node] at hr
        rw [hk1] at hr
        cases hname : child_by_field_name n "name" with
        | none => rw [hname] at hr; simp at hr
        | some nm =>
          rw [hname] at hr
          simp at hr
          exact ⟨n, cn, Reaches.refl n cn, Or.inl ⟨hk1, nm, hname, hr⟩⟩
      · by_cases hk2 : n.kind = "decorated_definition"
        · rw [visit_node] at hr
          rw [hk2] at hr
          simp only at hr
          cases hlast : n.children.get? (n.children.length - 1) with
          | none =>
            rw [hlast] at hr
            simp at hr
          | some child =>
            rw [hlast] at hr
            by_cases hck : child.kind = "function_definition"
            · cases hname : child_by_field_name child "name" with
              | none => simp [hck, hname] at hr
              | some nm =>
                simp [hck, hname] at hr
                exact ⟨n, cn, Reaches.refl n cn, Or.inr ⟨hk2, child, nm,
                  hlast, hck, hname, hr⟩⟩
            · simp [hck] at hr
        · by_cases hk3 : n.kind = "class_definition"
          · rw [visit_node] at hr
            rw [hk3] at hr
            cases cn with
            | some cname => simp at hr
            | none =>
              simp only [Option.isNone_none, if_true] at hr
              cases hname : child_by_field_name n "name" with
              | none => rw [hname] at hr; simp at hr
              | some nm =>
                rw [hname] at hr
                simp only at hr
                obtain ⟨c, hc, hrc⟩ := visit_forest_mem hr
                have hcsz : cst_size c ≤ N := by
                  have h1 := cst_size_le_of_mem hc
                  have h2 := csts_size_children_lt n
                  omega
                obtain ⟨m, cn', hreach, hres⟩ :=
                  ih c (some nm.text) hcsz r hrc
                exact ⟨m, cn',
                  Reaches.through_class n c m nm cn' hk3 hname hc hreach,
                  hres⟩
          · rw [visit_node] at hr
            split at hr
            · exact absurd (by assumption) hk1
            · exact absurd (by assumption) hk2
            · exact absurd (by assumption) hk3
            · obtain ⟨c, hc, hrc⟩ := visit_forest_mem hr
              have hcsz : cst_size c ≤ N := by
                have h1 := cst_size_le_of_mem hc
                have h2 := csts_size_children_lt n
                omega
              obtain ⟨m, cn', hreach, hres⟩ := ih c cn hcsz r hrc
              exact ⟨m, cn',
                Reaches.through_other n cn c m cn' hk1 hk2 hk3 hc hreach,
                hres⟩
  intro r hr
  exact key (cst_size n) n cn le_rfl r hr

/-- A module-level `def f(): ...` node. -/
def cst_fn_top : CST :=
  .mk "function_definition" "" none 0 1
    [.mk "def" "" none 0 0 [],
     .mk "identifier" "f" (some "name") 0 0 [],
     .mk "parameters" "" (some "parameters") 0 0 [],
     .mk ":" "" none 0 0 [],
     .mk "block" "" (some "body") 1 1 []]

/-- A module containing only `cst_fn_top`. -/
def cst_module_f : CST := .mk "module" "" none 0 1 [cst_fn_top]

/-- C9 witness: the record reported for the module-level function `f`
originates from a reachable `function_definition` position. -/
theorem visit_node_reports_only_reachable_defs_witness :
    ∃ m cn',
      Reaches cst_module_f none m cn'
      ∧ ((m.kind = "function_definition"
            ∧ ∃ nm, child_by_field_name m "name" = some nm
                ∧ function_def_record cst_fn_top cst_fn_top
                    (CST.mk "identifier" "f" (some "name") 0 0 []) none
                  = function_def_record m m nm cn')
        ∨ (m.kind = "decorated_definition"
            ∧ ∃ inner nm,
                m.children.get? (m.children.length - 1) = some inner
                ∧ inner.kind = "function_definition"
                ∧ child_by_field_name inner "name" = some nm
                ∧ function_def_record cst_fn_top cst_fn_top
                    (CST.mk "identifier" "f" (some "name") 0 0 []) none
                  = function_def_record m inner nm cn')) := by
  have h : visit_node cst_module_f none
      = [function_def_record cst_fn_top cst_fn_top
          (CST.mk "identifier" "f" (some "name") 0 0 []) none] := by
    simp [visit_node, visit_forest, cst_module_f, cst_fn_top, CST.kind,
      CST.children, child_by_field_name, CST.field, function_def_record]
  exact visit_node_reports_only_reachable_defs cst_module_f none
    (function_def_record cst_fn_top cst_fn_top
      (CST.mk "identifier" "f" (some "name") 0 0 []) none)
    (by rw [h]; exact List.mem_cons_self _ _)

end Similarity
